import Mathlib

/-!
Shallow embedding of the Carlae (Lisp) interpreter from `lab.py`.

Python trees and values share one representation (parsed expressions are
ints, floats, strings and nested lists; values additionally include
`CarlaeFunction` closures and the host-level builtin functions), so a
single inductive `Term` embeds both.  Environments are mutable and shared
(closures capture them by reference), so they live in an explicit `Store`
(a list of frames) threaded through evaluation; an environment is the
index of its frame.  Python exceptions that are part of the interpreter's
taxonomy become the matching `Err` constructors; Python host-language
errors that escape the interpreter (IndexError, ValueError, TypeError,
ZeroDivisionError) become `Err.hostError`.  Recursion is modelled with
fuel (`Err.fuelOut` marks exhaustion); fuel is charged once per
`evaluate` node, mirroring one Python stack frame per call.
Python float payloads are modelled as exact rationals: only the
int-versus-float tag of a number is relevant to the properties proved
here, never IEEE rounding.
-/

namespace Carlae

/-- Error taxonomy: the three `CarlaeError` subclasses from the source, plus
`hostError` for Python exceptions that are not part of the taxonomy and
`fuelOut` for exhaustion of the recursion-depth fuel. -/
inductive Err where
  | carlaeSyntaxError
  | carlaeNameError
  | carlaeEvaluationError
  | hostError
  | fuelOut
deriving DecidableEq, Repr

/-- The five entries of `carlae_builtins` (host-implemented functions). -/
inductive Prim where
  | add
  | sub
  | mul
  | div
  | assign
deriving DecidableEq, Repr

/-- Expressions and values of the interpreter, mirroring the dynamic typing
of the source: parsed trees are `int`/`float`/`sym`/`list`; values may in
addition be `closure` (a `CarlaeFunction`: raw parameters tree, body tree,
captured environment index) and `prim` (a builtin).  A closure's
`params` field stores `tree[1]` of the `function` form raw, exactly as
`CarlaeFunction.__init__` stores it. -/
inductive Term where
  | int (n : Int)
  | float (q : Rat)
  | sym (s : String)
  | list (ts : List Term)
  | closure (params : Term) (body : Term) (env : Nat)
  | prim (p : Prim)

mutual

/-- Structural equality of terms (Python `==` restricted to the shapes the
interpreter actually compares: dict keys and the keyword test). -/
def Term.beq : Term → Term → Bool
  | .int m, .int n => m == n
  | .float p, .float q => p == q
  | .sym a, .sym b => a == b
  | .list ts, .list us => Term.beqList ts us
  | .closure p b e, .closure p' b' e' => Term.beq p p' && Term.beq b b' && e == e'
  | .prim p, .prim p' => p == p'
  | _, _ => false

/-- Pointwise `Term.beq` on lists. -/
def Term.beqList : List Term → List Term → Bool
  | [], [] => true
  | t :: ts, u :: us => Term.beq t u && Term.beqList ts us
  | _, _ => false

end

instance : BEq Term := ⟨Term.beq⟩

/-- The Python test `t == "s"`: true exactly when `t` is the symbol `s`. -/
def isSym (t : Term) (s : String) : Bool :=
  match t with
  | .sym s' => s' == s
  | _ => false

/-- One `Environment` object: its `variables` dict (an insertion-ordered
association list, as Python dicts are — the field is named `vars` because
`variables` is reserved in Lean) and its optional parent. -/
structure Frame where
  vars : List (Term × Term)
  parent : Option Nat

/-- The heap of environment frames; an environment is an index into it. -/
abbrev Store := List Frame

/-- Python dict lookup (`d.get(k)`). -/
def dictGet : List (Term × Term) → Term → Option Term
  | [], _ => none
  | (k', v) :: rest, k => if k' == k then some v else dictGet rest k

/-- Python dict assignment (`d[k] = v`): overwrite in place, else append. -/
def dictSet : List (Term × Term) → Term → Term → List (Term × Term)
  | [], k, v => [(k, v)]
  | (k', v') :: rest, k, v =>
      if k' == k then (k, v) :: rest else (k', v') :: dictSet rest k v

/-- Python truthiness of an interpreter value (`if value:` in
`Environment.get`): zero numbers, the empty string and the empty list are
falsy; closures and builtin functions are truthy. -/
def truthy : Term → Bool
  | .int n => n != 0
  | .float q => q != 0
  | .sym s => s != ""
  | .list ts => !ts.isEmpty
  | .closure _ _ _ => true
  | .prim _ => true

/-- `Environment.get`, including its truthiness-based miss detection: a
binding whose value is falsy is treated like an absent binding and the
walk continues to the parent; reaching a parentless frame yields `none`
(Python `None`).  `gas` bounds the parent walk (the interpreter only ever
builds chains whose parent indices strictly decrease, so any `gas` at
least the chain length is enough; a malformed cyclic store, on which the
Python original would loop forever, runs out of gas to `none`). -/
def Environment.get (s : Store) : Nat → Nat → Term → Option Term
  | 0, _, _ => none
  | gas + 1, e, k =>
    match s.get? e with
    | none => none
    | some fr =>
      match dictGet fr.vars k with
      | some v =>
          if truthy v then some v
          else
            match fr.parent with
            | none => none
            | some p => Environment.get s gas p k
      | none =>
          match fr.parent with
          | none => none
          | some p => Environment.get s gas p k

/-- `Environment.set`: bind in the current frame only. -/
def Environment.set (s : Store) (e : Nat) (k v : Term) : Store :=
  match s.get? e with
  | none => s
  | some fr => s.set e ⟨dictSet fr.vars k v, fr.parent⟩

/-- Shared shape of the promoting arithmetic operators: int op int stays
int, any float operand gives float (Python numeric promotion), any
non-number operand is a host TypeError. -/
def arithVal (fi : Int → Int → Int) (fq : Rat → Rat → Rat) (a b : Term) :
    Except Err Term :=
  match a, b with
  | .int m, .int n => .ok (.int (fi m n))
  | .int m, .float q => .ok (.float (fq (m : Rat) q))
  | .float p, .int n => .ok (.float (fq p (n : Rat)))
  | .float p, .float q => .ok (.float (fq p q))
  | _, _ => .error .hostError

/-- Python `a + b` on interpreter values. -/
def addVal : Term → Term → Except Err Term := arithVal (· + ·) (· + ·)

/-- Python `a - b` on interpreter values. -/
def subVal : Term → Term → Except Err Term := arithVal (· - ·) (· - ·)

/-- Python `a * b` on interpreter values. -/
def mulVal : Term → Term → Except Err Term := arithVal (· * ·) (· * ·)

/-- Python `a / b` on interpreter values: true division, whose result is a
float even on two ints; a zero divisor is a host ZeroDivisionError. -/
def divVal (a b : Term) : Except Err Term :=
  match a, b with
  | .int m, .int n =>
      if n = 0 then .error .hostError else .ok (.float ((m : Rat) / (n : Rat)))
  | .int m, .float q =>
      if q = 0 then .error .hostError else .ok (.float ((m : Rat) / q))
  | .float p, .int n =>
      if n = 0 then .error .hostError else .ok (.float (p / (n : Rat)))
  | .float p, .float q =>
      if q = 0 then .error .hostError else .ok (.float (p / q))
  | _, _ => .error .hostError

/-- Error-propagating left fold, the shape of the accumulation loops in the
builtins. -/
def foldE (f : Term → Term → Except Err Term) : Term → List Term → Except Err Term
  | acc, [] => .ok acc
  | acc, a :: rest =>
    match f acc a with
    | .ok v => foldE f v rest
    | .error e => .error e

/-- Python's built-in `sum` applied to the argument list (start value `0`,
an int). -/
def pySum (args : List Term) : Except Err Term := foldE addVal (.int 0) args

/-- The `-` builtin: unary negation for one argument, otherwise
`args[0] - sum(args[1:])`; an empty argument list hits `args[0]`, a host
IndexError. -/
def subtractBuiltin (args : List Term) : Except Err Term :=
  match args with
  | [] => .error .hostError
  | [a] =>
    match a with
    | .int n => .ok (.int (-n))
    | .float q => .ok (.float (-q))
    | _ => .error .hostError
  | a :: rest =>
    match pySum rest with
    | .ok srest => subVal a srest
    | .error e => .error e

/-- `multiply`: fold `*` over the arguments starting from the int `1`. -/
def multiply (args : List Term) : Except Err Term := foldE mulVal (.int 1) args

/-- `divide`: `value = args[0]` then `value /= arg` over `args[1:]`; an
empty argument list is a host IndexError, and a single argument is
returned unchanged (no division happens). -/
def divide (args : List Term) : Except Err Term :=
  match args with
  | [] => .error .hostError
  | a :: rest => foldE divVal a rest

/-- Application of a builtin through the generic call path
`func(evaluated_expressions[1:])`: the `assignment` builtin takes three
positional parameters, so calling it with the single list argument is a
host TypeError. -/
def applyPrim : Prim → List Term → Except Err Term
  | .add, args => pySum args
  | .sub, args => subtractBuiltin args
  | .mul, args => multiply args
  | .div, args => divide args
  | .assign, _ => .error .hostError

/-- The `carlae_builtins` dict, in source order. -/
def carlae_builtins : List (Term × Term) :=
  [(.sym "+", .prim .add), (.sym "-", .prim .sub), (.sym "*", .prim .mul),
   (.sym "/", .prim .div), (.sym ":=", .prim .assign)]

/-- The root builtins environment `Environment(carlae_builtins)`. -/
def builtinsFrame : Frame := ⟨carlae_builtins, none⟩

/-- `assignment(variable, value, env)`: bind and return the value (the
first parameter is named `var` because `variable` is reserved in Lean). -/
def assignment (var value : Term) (e : Nat) (s : Store) :
    (Except Err Term) × Store :=
  (.ok value, Environment.set s e var value)

/-- Python `len` of a closure's stored parameters: defined on lists and on
strings (character count); anything else is a host TypeError. -/
def pyLen : Term → Option Nat
  | .list ts => some ts.length
  | .sym s => some s.length
  | _ => none

/-- Python iteration over a closure's stored parameters, as used by
`zip(self.parameters, evaluated_arguments)`: a list yields its elements, a
string yields its characters as one-character strings. -/
def pyIter : Term → List Term
  | .list ts => ts
  | .sym s => s.data.map (fun c => .sym (String.mk [c]))
  | _ => []

/-- The parameter-binding loop of `CarlaeFunction.call`: successive
`func_env.set` on an initially empty dict. -/
def bindParams (vars vals : List Term) : List (Term × Term) :=
  (vars.zip vals).foldl (fun d kv => dictSet d kv.1 kv.2) []

/-- Left-to-right evaluation of a list of expressions with a given
evaluator, threading the store and stopping at the first raised error (the
list comprehensions in `evaluate` and in `CarlaeFunction.call`). -/
def evalElems (ev : Term → Store → (Except Err Term) × Store) :
    List Term → Store → (Except Err (List Term)) × Store
  | [], s => (.ok [], s)
  | t :: rest, s =>
    match ev t s with
    | (.error e, s1) => (.error e, s1)
    | (.ok v, s1) =>
      match evalElems ev rest s1 with
      | (.error e, s2) => (.error e, s2)
      | (.ok vs, s2) => (.ok (v :: vs), s2)

/-- `CarlaeFunction.call`, parameterized by the evaluator used for its
recursive calls: arity check first (`len` of the raw parameters tree, a
host TypeError when `len` is undefined; a count mismatch raises
`CarlaeEvaluationError` before anything else happens), then re-evaluation
of the argument values in the closure's captured defining environment,
then a fresh child frame of the defining environment binding the
parameters positionally, in which the body is evaluated. -/
def callVia (ev : Term → Nat → Store → (Except Err Term) × Store)
    (ps body : Term) (ce : Nat) (args : List Term) (s : Store) :
    (Except Err Term) × Store :=
  match pyLen ps with
  | none => (.error .hostError, s)
  | some n =>
    if n ≠ args.length then (.error .carlaeEvaluationError, s)
    else
      match evalElems (fun t s' => ev t ce s') args s with
      | (.error e, s1) => (.error e, s1)
      | (.ok vals, s1) =>
          ev body s1.length (s1 ++ [⟨bindParams (pyIter ps) vals, some ce⟩])

/-- `evaluate(tree, env)` with the environment given (the recursive calls
of the source always pass one).  Dispatch order mirrors the source: empty
list, numbers, symbol lookup (`None` from `get` raises
`CarlaeNameError`), a `CarlaeFunction` value is called with no arguments,
a builtin value reaches `tree[0]` (host TypeError); then keyword dispatch
on the head of a combination (`:=` with its shorthand-definition case,
`function`), then application: all elements are evaluated left to right,
a closure head is called on the remaining values (also when there are
none), otherwise a single-element combination returns its value, a
callable head is applied, and anything else raises
`CarlaeEvaluationError`.  The malformed special forms reproduce the host
errors of the source: a missing `tree[1]`, `tree[1][0]` or `tree[2]` is an
IndexError and a `:=`/`function` unpacking of the wrong element count is a
ValueError, all `hostError` here; a shorthand `:=` form with more than
three elements ignores the extras, exactly as `tree[2]` does. -/
def eval : Nat → Term → Nat → Store → (Except Err Term) × Store
  | 0, _, _, s => (.error .fuelOut, s)
  | f + 1, tree, e, s =>
    match tree with
    | .list [] => (.ok (.list []), s)
    | .int n => (.ok (.int n), s)
    | .float q => (.ok (.float q), s)
    | .sym x =>
      match Environment.get s s.length e (.sym x) with
      | none => (.error .carlaeNameError, s)
      | some v => (.ok v, s)
    | .closure ps body ce =>
        callVia (fun t e' s' => eval f t e' s') ps body ce [] s
    | .prim _ => (.error .hostError, s)
    | .list (t0 :: rest) =>
      if isSym t0 ":=" then
        match rest with
        | [] => (.error .hostError, s)
        | first :: rest2 =>
          match first with
          | .list inner1 =>
            match inner1 with
            | [] => (.error .hostError, s)
            | fn :: params =>
              match rest2 with
              | [] => (.error .hostError, s)
              | body :: _ => assignment fn (.closure (.list params) body e) e s
          | _ =>
            match rest2 with
            | [expr0] =>
              match eval f expr0 e s with
              | (.ok v, s1) => assignment first v e s1
              | (.error err, s1) => (.error err, s1)
            | _ => (.error .hostError, s)
      else if isSym t0 "function" then
        match rest with
        | [params, body] => (.ok (.closure params body e), s)
        | _ => (.error .hostError, s)
      else
        match evalElems (fun t s' => eval f t e s') (t0 :: rest) s with
        | (.error err, s1) => (.error err, s1)
        | (.ok [], s1) => (.error .hostError, s1)
        | (.ok (v0 :: argvs), s1) =>
          match v0 with
          | .closure ps body ce =>
              callVia (fun t e' s' => eval f t e' s') ps body ce argvs s1
          | _ =>
            match argvs with
            | [] => (.ok v0, s1)
            | _ =>
              match v0 with
              | .prim p => (applyPrim p argvs, s1)
              | _ => (.error .carlaeEvaluationError, s1)

/-- `CarlaeFunction.call` at a given fuel: the standalone name for the
closure-call path of `eval`. -/
def CarlaeFunction.call (f : Nat) (ps body : Term) (ce : Nat)
    (args : List Term) (s : Store) : (Except Err Term) × Store :=
  callVia (fun t e' s' => eval f t e' s') ps body ce args s

/-- The argument list comprehension of `evaluate` at a given fuel. -/
def evalList (f : Nat) (ts : List Term) (e : Nat) (s : Store) :
    (Except Err (List Term)) × Store :=
  evalElems (fun t s' => eval f t e s') ts s

/-- `_create_env`: keep a given environment, otherwise build a fresh
environment chained under a freshly built builtins root. -/
def _create_env : Option Nat → Store → Nat × Store
  | some e, s => (e, s)
  | none, s => (s.length + 1, s ++ [builtinsFrame, ⟨[], some s.length⟩])

/-- `evaluate` with its optional-environment signature. -/
def evaluate (f : Nat) (tree : Term) (env : Option Nat) (s : Store) :
    (Except Err Term) × Store :=
  let p := _create_env env s
  eval f tree p.1 p.2

/-- `result_and_env`: create (or keep) the environment, evaluate, and
return the value together with that environment. -/
def result_and_env (f : Nat) (tree : Term) (env : Option Nat) (s : Store) :
    (Except Err (Term × Nat)) × Store :=
  let p := _create_env env s
  match evaluate f tree (some p.1) p.2 with
  | (.ok v, s2) => (.ok (v, p.1), s2)
  | (.error err, s2) => (.error err, s2)

/-! ## Tokenizer -/

def parenthesis : List Char := ['(', ')']

def keywords : List String := [":=", "function"]

def whitespaceChars : List Char := [' ', '\n']

def delimiters : List Char := ['(', ')', ' ', '\n']

/-- State of the tokenizer loop: the emitted tokens, the accumulating
current token, and the comment flag. -/
structure TokState where
  tokens : List String
  current : String
  isComment : Bool

/-- One iteration of the character loop of `tokenize`, in source order:
delimiters flush the pending token; whitespace is skipped (a newline ends
a comment); inside a comment everything else is skipped; parentheses are
emitted as their own tokens; `#` starts a comment; any other character is
appended to the current token, which is flushed at once if it has become a
reserved keyword. -/
def tokStep (st : TokState) (c : Char) : TokState :=
  let st1 :=
    if c ∈ delimiters then
      { st with tokens := st.tokens ++ (if st.current ≠ "" then [st.current] else []),
                current := "" }
    else st
  if c ∈ whitespaceChars then
    if c = '\n' then { st1 with isComment := false } else st1
  else if st1.isComment then st1
  else if c ∈ parenthesis then
    { st1 with tokens := st1.tokens ++ [String.mk [c]] }
  else if c = '#' then { st1 with isComment := true }
  else
    let cur := st1.current.push c
    if cur ∈ keywords then { st1 with tokens := st1.tokens ++ [cur], current := "" }
    else { st1 with current := cur }

/-- `tokenize`: fold the character loop over the source and flush any
remaining token. -/
def tokenize (source : String) : List String :=
  let st := source.data.foldl tokStep ⟨[], "", false⟩
  st.tokens ++ (if st.current ≠ "" then [st.current] else [])

/-! ## Parser -/

/-- Digits of a literal, most significant first, as a natural number. -/
def digitsToNat (ds : List Char) : Nat :=
  ds.foldl (fun a c => a * 10 + (c.toNat - 48)) 0

/-- Acceptance by Python's `int(x)`, modelled for the subset of literals
the language uses: an optional sign followed by a nonempty run of digits
(Python's tolerance for surrounding whitespace and underscores is not
modelled; no claim exercises it). -/
def parseIntLit (x : String) : Option Int :=
  match x.data with
  | [] => none
  | '-' :: ds =>
      if ds ≠ [] ∧ ds.all Char.isDigit then some (-(digitsToNat ds : Int)) else none
  | '+' :: ds =>
      if ds ≠ [] ∧ ds.all Char.isDigit then some (digitsToNat ds : Int) else none
  | ds => if ds.all Char.isDigit then some (digitsToNat ds : Int) else none

/-- Acceptance by Python's `float(x)` for the literal shapes the language
uses: an optional sign, a (possibly empty) run of digits, a dot, and a
(possibly empty) run of digits, with at least one digit overall (exponent
and special forms are not modelled; no claim exercises them).  The payload
is the exact rational value. -/
def parseFloatLit (x : String) : Option Rat :=
  let core : List Char → Option Rat := fun ds =>
    let intPart := ds.takeWhile (fun c => c ≠ '.')
    match ds.dropWhile (fun c => c ≠ '.') with
    | '.' :: frac =>
        if intPart.all Char.isDigit ∧ frac.all Char.isDigit ∧
            (intPart ≠ [] ∨ frac ≠ []) then
          some ((digitsToNat intPart : Rat) +
            (digitsToNat frac : Rat) / ((10 : Rat) ^ frac.length))
        else none
    | _ => none
  match x.data with
  | '-' :: ds => (core ds).map (fun q => -q)
  | '+' :: ds => core ds
  | ds => core ds

/-- `number_or_symbol`: try `int`, then `float`, else keep the string as a
symbol. -/
def number_or_symbol (x : String) : Term :=
  match parseIntLit x with
  | some n => .int n
  | none =>
    match parseFloatLit x with
    | some q => .float q
    | none => .sym x

/-- The grouping loop of `_group_tokens` over the interior tokens
(`inner`), carried with the current index `i` and the remaining suffix
`r` (`r = inner.drop i`): `(` opens a group (recording its index when no
group is open) and increments the depth; `)` decrements it — below zero is
a `CarlaeSyntaxError`, back to zero closes the group as the slice
`inner_tokens[opening : i + 1]`; any other token at depth zero is its own
singleton group; a positive depth at the end of the loop is a
`CarlaeSyntaxError`. -/
def groupLoop (inner : List String) :
    Nat → List String → List (List String) → Int → Int →
    Except Err (List (List String))
  | _, [], groups, _, stack =>
      if stack > 0 then .error .carlaeSyntaxError else .ok groups
  | i, t :: rest, groups, opening, stack =>
    if t = "(" then
      groupLoop inner (i + 1) rest groups
        (if opening < 0 then (i : Int) else opening) (stack + 1)
    else if t = ")" then
      if stack - 1 < 0 then .error .carlaeSyntaxError
      else if stack - 1 = 0 then
        groupLoop inner (i + 1) rest
          (groups ++ [(inner.drop opening.toNat).take (i + 1 - opening.toNat)])
          (-1) (stack - 1)
      else groupLoop inner (i + 1) rest groups opening (stack - 1)
    else
      if opening ≥ 0 then groupLoop inner (i + 1) rest groups opening stack
      else groupLoop inner (i + 1) rest (groups ++ [[t]]) opening stack

/-- `_group_tokens`: an empty token list hits `tokens[0]`, a host
IndexError; a sequence not enclosed in `(`…`)` is a `CarlaeSyntaxError`;
otherwise the interior is partitioned into top-level groups by
`groupLoop`. -/
def _group_tokens (tokens : List String) : Except Err (List (List String)) :=
  match tokens with
  | [] => .error .hostError
  | t :: _ =>
    if t ≠ "(" ∨ tokens.getLast? ≠ some ")" then .error .carlaeSyntaxError
    else
      let inner := (tokens.drop 1).dropLast
      groupLoop inner 0 inner [] (-1) 0

/-- `parse` with explicit recursion fuel (the Python original recurses on
strictly shorter token lists, so any fuel above `tokens.length` is enough;
`parse` below fixes such a fuel): a lone `(` or `)` is a
`CarlaeSyntaxError`, any other single token is an atom, and otherwise the
top-level groups are parsed recursively into a combination. -/
def parseF : Nat → List String → Except Err Term
  | 0, _ => .error .fuelOut
  | f + 1, tokens =>
    match tokens with
    | [t] =>
        if t = "(" ∨ t = ")" then .error .carlaeSyntaxError
        else .ok (number_or_symbol t)
    | _ =>
      match _group_tokens tokens with
      | .error e => .error e
      | .ok groups =>
        match groups.mapM (parseF f) with
        | .error e => .error e
        | .ok parsed => .ok (.list parsed)

/-- `parse`: run `parseF` with enough fuel for its recursion depth. -/
def parse (tokens : List String) : Except Err Term :=
  parseF (tokens.length + 1) tokens

/-- `run_carlae`: tokenize, parse, evaluate (with `result_and_env`), and
return only the value — element `[0]` of the pair. -/
def run_carlae (f : Nat) (src : String) (env : Option Nat) (s : Store) :
    (Except Err Term) × Store :=
  match parse (tokenize src) with
  | .error err => (.error err, s)
  | .ok tree =>
    match result_and_env f tree env s with
    | (.ok ve, s1) => (.ok ve.1, s1)
    | (.error err, s1) => (.error err, s1)

/-! ## Specification-side predicates

The definitions below are not translations of source code; they state,
independently of the parser and evaluator, the shapes the claims talk
about, so that the theorems can compare code against them. -/

/-- The value is an int. -/
def isIntV (t : Term) : Prop := ∃ n, t = Term.int n

/-- The value is a float. -/
def isFloatV (t : Term) : Prop := ∃ q, t = Term.float q

/-- The value is a number. -/
def isNumV (t : Term) : Prop := isIntV t ∨ isFloatV t

/-- The value is a nonzero number (a legal divisor). -/
def nonzeroNumV (t : Term) : Prop :=
  (∃ n : Int, n ≠ 0 ∧ t = Term.int n) ∨ (∃ q : Rat, q ≠ 0 ∧ t = Term.float q)

/-- Contribution of one token to the parenthesis depth. -/
def depthDelta (t : String) : Int :=
  if t = "(" then 1 else if t = ")" then -1 else 0

/-- Run the parenthesis depth across the tokens starting from `d`,
failing (`none`) as soon as it dips below zero. -/
def runDepth (d : Int) : List String → Option Int
  | [] => some d
  | t :: ts =>
    let d' := d + depthDelta t
    if d' < 0 then none else runDepth d' ts

/-- The depth, started from `d`, stays at least `1` after every token. -/
def stayPos (d : Int) : List String → Bool
  | [] => true
  | t :: ts =>
    let d' := d + depthDelta t
    decide (1 ≤ d') && stayPos d' ts

/-- Balanced from depth `d`: the depth never dips below zero and ends at
exactly zero. -/
def balancedFrom (d : Int) (xs : List String) : Bool :=
  runDepth d xs == some 0

/-- Well-formedness of a token sequence, stated from the spec's grammar:
one token that is not a bare paren, or an outer `(`…`)` pair whose
interior keeps a nonnegative running depth that ends at zero. -/
def wfTokens : List String → Bool
  | [] => false
  | [t] => !(t == "(" || t == ")")
  | t :: rest => t == "(" && (rest.getLast? == some ")") && balancedFrom 0 rest.dropLast

/-- A top-level group produced by well-formed grouping: a non-paren
singleton or a balanced `(`…`)` run. -/
def goodGroup (g : List String) : Prop :=
  (∃ t, g = [t] ∧ t ≠ "(" ∧ t ≠ ")") ∨
  (∃ mid, g = "(" :: mid ++ [")"] ∧ balancedFrom 0 mid = true)

/-- An environment chain, walked from `e` through at most `k` parents,
that is rooted at the builtins table and binds neither `:=` nor
`function` in any frame above the root. -/
def plainChain (s : Store) : Nat → Nat → Prop
  | 0, _ => False
  | k + 1, e =>
    match s.get? e with
    | none => False
    | some fr =>
      match fr.parent with
      | none => fr.vars = carlae_builtins
      | some p =>
          dictGet fr.vars (.sym ":=") = none ∧
          dictGet fr.vars (.sym "function") = none ∧
          plainChain s k p

/-! ## Concrete stores used by counterexamples and witnesses -/

/-- A fresh global environment over a fresh builtins root, as
`_create_env(None)` builds it: frame 0 is the builtins, frame 1 the
(initially empty) global frame. -/
def freshS : Store := [builtinsFrame, ⟨[], some 0⟩]

/-- A fresh chain whose global frame binds `x` to the int `0`. -/
def storeXZero : Store := [builtinsFrame, ⟨[(.sym "x", .int 0)], some 0⟩]

/-- A fresh chain whose global frame binds `f` to a zero-parameter closure
with body `42`, captured in the global frame. -/
def storeFClosure : Store :=
  [builtinsFrame, ⟨[(.sym "f", .closure (.list []) (.int 42) 1)], some 0⟩]

/-- A chain for the shadowing scenario: frame 1 (the defining environment)
binds `x` to `1`; frame 2 (the calling environment) binds `x` to `2`. -/
def storeShadow : Store :=
  [builtinsFrame, ⟨[(.sym "x", .int 1)], some 0⟩, ⟨[(.sym "x", .int 2)], some 1⟩]

/-! ## Theorems -/

/-- C1: the claim requires that a symbol legitimately bound to a
falsy-looking value (here `x` bound to the int `0` in the global frame of
a builtins-rooted chain) evaluates to that value without raising
NameLookupFailure.  The code violates this: `Environment.get` tests the
binding with Python truthiness, so the binding to `0` is treated as
absent, the walk falls through the whole chain, and `evaluate` raises
`CarlaeNameError`.  The first conjunct shows the binding is present in
the frame's dict; the second evaluates the code at that input. -/
theorem c1_falsy_binding_raises_nameError :
    dictGet [(.sym "x", .int 0)] (.sym "x") = some (.int 0) ∧
    eval 3 (.sym "x") 1 storeXZero = (.error .carlaeNameError, storeXZero) :=
  ⟨rfl, rfl⟩

/-- C7: counterexample evaluation showing that malformed `:=` and
`function` special forms (wrong element count) abort with the host-level
error (`hostError`, standing for Python's IndexError/ValueError), not
with the classified `CarlaeEvaluationError` the claim requires: shown on
`(:= x)`, `(:=)`, `(:= x 1 2)` and `(function (x))`. -/
theorem c7_malformed_forms_raise_host_error :
    (eval 3 (.list [.sym ":=", .sym "x"]) 1 freshS).1 = .error .hostError ∧
    (eval 3 (.list [.sym ":="]) 1 freshS).1 = .error .hostError ∧
    (eval 3 (.list [.sym ":=", .sym "x", .int 1, .int 2]) 1 freshS).1 =
      .error .hostError ∧
    (eval 3 (.list [.sym "function", .list [.sym "x"]]) 1 freshS).1 =
      .error .hostError ∧
    Err.hostError ≠ Err.carlaeEvaluationError :=
  ⟨rfl, rfl, rfl, rfl, by decide⟩

/-- C4 counterexample: the claim asserts the second evaluation of an
already-evaluated argument value is idempotent for every reduced value
including closures.  Here `((function (g) g) (function () 7))` passes the
value of `(function () 7)` — a closure — to the outer closure; the
re-evaluation in `CarlaeFunction.call` hits the `CarlaeFunction` branch of
`evaluate` and calls it with zero arguments, so `g` is bound to `7`, not
to the closure, and the whole expression yields `7` instead of the
closure value. -/
theorem c4_closure_argument_not_idempotent :
    (eval 10 (.list [.sym "function", .list [], .int 7]) 1 freshS).1 =
      .ok (.closure (.list []) (.int 7) 1) ∧
    (eval 10 (.list [.list [.sym "function", .list [.sym "g"], .sym "g"],
        .list [.sym "function", .list [], .int 7]]) 1 freshS).1 =
      .ok (.int 7) ∧
    Term.int 7 ≠ Term.closure (.list []) (.int 7) 1 :=
  ⟨rfl, rfl, fun h => Term.noConfusion h⟩

/-- C4 (amended): each closure argument is first evaluated in the caller's
environment and its value is then evaluated again in the closure's
captured defining environment; this second evaluation is idempotent for
numbers and the empty-list value, but it is not the identity on the other
reduced values: a closure value is called with zero arguments and a
primitive value reaches `tree[0]`, a host TypeError. -/
theorem c4_second_evaluation_of_values :
    (∀ f e s n, eval (f + 1) (.int n) e s = (.ok (.int n), s)) ∧
    (∀ f e s q, eval (f + 1) (.float q) e s = (.ok (.float q), s)) ∧
    (∀ f e s, eval (f + 1) (.list []) e s = (.ok (.list []), s)) ∧
    (∀ f e s ps b ce,
        eval (f + 1) (.closure ps b ce) e s = CarlaeFunction.call f ps b ce [] s) ∧
    (∀ f e s p, eval (f + 1) (.prim p) e s = (.error .hostError, s)) :=
  ⟨fun _ _ _ _ => rfl, fun _ _ _ _ => rfl, fun _ _ _ => rfl,
   fun _ _ _ _ _ _ => rfl, fun _ _ _ _ => rfl⟩

/-- C5: calling a closure whose parameter list's length differs from the
argument list's length raises `CarlaeEvaluationError` immediately: no
argument is re-evaluated, no parameter is bound and the body is never
entered — the store comes back unchanged. -/
theorem c5_arity_mismatch_evaluation_error (f : Nat) (psl : List Term)
    (body : Term) (ce : Nat) (args : List Term) (s : Store)
    (h : psl.length ≠ args.length) :
    CarlaeFunction.call f (.list psl) body ce args s =
      (.error .carlaeEvaluationError, s) := by
  simp [CarlaeFunction.call, callVia, pyLen, h]

/-- C5 witness: a zero-parameter closure called with one argument. -/
theorem c5_arity_mismatch_witness :
    ([] : List Term).length ≠ [Term.int 1].length ∧
    CarlaeFunction.call 3 (.list []) (.int 5) 0 [.int 1] freshS =
      (.error .carlaeEvaluationError, freshS) :=
  ⟨by decide, c5_arity_mismatch_evaluation_error 3 [] (.int 5) 0 [.int 1] freshS
    (by decide)⟩

/-- C3 counterexample: the claim asserts a single-element combination
returns the evaluated value of its element even when that value is a
Closure.  With `f` bound to a zero-parameter closure with body `42`,
evaluating the combination `(f)` does not return the closure: the code's
application path calls it, yielding `42`. -/
theorem c3_singleton_closure_is_called :
    (eval 6 (.sym "f") 1 storeFClosure).1 =
      .ok (.closure (.list []) (.int 42) 1) ∧
    (eval 6 (.list [.sym "f"]) 1 storeFClosure).1 = .ok (.int 42) ∧
    Term.int 42 ≠ Term.closure (.list []) (.int 42) 1 :=
  ⟨rfl, rfl, fun h => Term.noConfusion h⟩

/-- C3 (amended): a single-element combination whose element is not the
`:=` or `function` keyword evaluates the element and returns its value
directly — numbers, primitives and the empty-list value included —
except when that value is a Closure, which is instead called with zero
arguments. -/
theorem c3_single_element_combination (f : Nat) (t : Term) (e : Nat)
    (s : Store) (v : Term) (s' : Store)
    (h1 : isSym t ":=" = false) (h2 : isSym t "function" = false)
    (hev : eval f t e s = (.ok v, s')) :
    eval (f + 1) (.list [t]) e s =
      (match v with
       | Term.closure ps b ce => CarlaeFunction.call f ps b ce [] s'
       | _ => (.ok v, s')) := by
  cases v <;> simp [eval, h1, h2, evalElems, hev, CarlaeFunction.call]

/-- C3 witness: the element `7` is not a closure, so `(7)` is just `7`. -/
theorem c3_single_element_witness :
    isSym (Term.int 7) ":=" = false ∧ isSym (Term.int 7) "function" = false ∧
    eval 1 (.int 7) 1 freshS = (.ok (.int 7), freshS) ∧
    eval 2 (.list [.int 7]) 1 freshS = (.ok (.int 7), freshS) :=
  ⟨rfl, rfl, rfl,
    c3_single_element_combination 1 (.int 7) 1 freshS (.int 7) freshS rfl rfl rfl⟩

/-- C6: when a closure is called with matching arity and its arguments
re-evaluate successfully (final store `s1`), the body is evaluated in a
brand-new frame — its index `s1.length` does not exist in `s1` — whose
parent is the closure's captured defining environment `ce`, with the
parameters bound positionally; the caller's environment plays no part
(`CarlaeFunction.call` is not even passed it). -/
theorem c6_body_in_fresh_child_of_defining_env (f : Nat) (psl : List Term)
    (body : Term) (ce : Nat) (args : List Term) (s : Store)
    (vals : List Term) (s1 : Store) (hlen : psl.length = args.length)
    (hargs : evalList f args ce s = (.ok vals, s1)) :
    CarlaeFunction.call f (.list psl) body ce args s =
      eval f body s1.length (s1 ++ [Frame.mk (bindParams psl vals) (some ce)]) ∧
    (s1 ++ [Frame.mk (bindParams psl vals) (some ce)]).get? s1.length =
      some (Frame.mk (bindParams psl vals) (some ce)) ∧
    s1.get? s1.length = none := by
  have hargs' : evalElems (fun t s' => eval f t ce s') args s = (.ok vals, s1) :=
    hargs
  refine ⟨?_, List.get?_concat_length _ _, List.get?_eq_none.mpr (le_refl _)⟩
  simp [CarlaeFunction.call, callVia, pyLen, hlen, hargs', pyIter]

/-- C6 witness: the shadowing scenario — a closure with body `x` captured
where `x = 1`, called from an environment where `x = 2`, sees `1`. -/
theorem c6_lexical_scope_witness :
    ([] : List Term).length = ([] : List Term).length ∧
    evalList 5 [] 1 storeShadow = (.ok [], storeShadow) ∧
    CarlaeFunction.call 5 (.list []) (.sym "x") 1 [] storeShadow =
      eval 5 (.sym "x") storeShadow.length
        (storeShadow ++ [Frame.mk (bindParams [] []) (some 1)]) ∧
    (eval 5 (.sym "x") storeShadow.length
        (storeShadow ++ [Frame.mk (bindParams [] []) (some 1)])).1 = .ok (.int 1) ∧
    (CarlaeFunction.call 5 (.list []) (.sym "x") 1 [] storeShadow).1 =
      .ok (.int 1) :=
  ⟨rfl, rfl,
    (c6_body_in_fresh_child_of_defining_env 5 [] (.sym "x") 1 [] storeShadow []
      storeShadow rfl rfl).1,
    rfl, rfl⟩

/-- Name lookup along a `plainChain`: `:=` resolves to the assignment
builtin bound in the root builtins table, and `function` is found
nowhere. -/
theorem plainChain_get (s : Store) :
    ∀ k e gas, plainChain s k e → k ≤ gas →
      Environment.get s gas e (.sym ":=") = some (.prim .assign) ∧
      Environment.get s gas e (.sym "function") = none := by
  intro k
  induction k with
  | zero => intro e gas h _; exact absurd h (by simp [plainChain])
  | succ k ih =>
    intro e gas h hle
    obtain ⟨g, rfl⟩ : ∃ g, gas = g + 1 :=
      ⟨gas - 1, (Nat.succ_pred_eq_of_pos (Nat.lt_of_lt_of_le (Nat.succ_pos k) hle)).symm⟩
    simp only [plainChain] at h
    cases hg : s.get? e with
    | none => simp only [hg] at h
    | some fr =>
      simp only [hg] at h
      cases hp : fr.parent with
      | none =>
        simp only [hp] at h
        constructor
        · simp only [Environment.get, hg, h]
          rfl
        · simp only [Environment.get, hg, h, hp]
          rfl
      | some p =>
        simp only [hp] at h
        obtain ⟨hv1, hv2, hrest⟩ := h
        have := ih p g hrest (Nat.le_of_succ_le_succ hle)
        constructor
        · simp only [Environment.get, hg, hv1, hp]
          exact this.1
        · simp only [Environment.get, hg, hv2, hp]
          exact this.2

/-- C10: in any environment chain rooted at the builtins table in which no
frame above the root binds `:=` or `function`, the symbol `:=` in
non-operator position evaluates by ordinary lookup to the primitive
assignment function (it is bound in the root builtins dict), while the
symbol `function` raises `CarlaeNameError` (it is bound nowhere); the
keyword dispatch of `evaluate` fires only on the head of a combination. -/
theorem c10_keyword_symbols_in_value_position (s : Store) (e k f : Nat)
    (hchain : plainChain s k e) (hk : k ≤ s.length) :
    eval (f + 1) (.sym ":=") e s = (.ok (.prim .assign), s) ∧
    eval (f + 1) (.sym "function") e s = (.error .carlaeNameError, s) ∧
    dictGet carlae_builtins (.sym ":=") = some (.prim .assign) ∧
    dictGet carlae_builtins (.sym "function") = none := by
  obtain ⟨h1, h2⟩ := plainChain_get s k e s.length hchain hk
  refine ⟨?_, ?_, rfl, rfl⟩
  · simp [eval, h1]
  · simp [eval, h2]

/-- C10 witness: the fresh chain built by `_create_env(None)`. -/
theorem c10_keyword_symbols_witness :
    plainChain freshS 2 1 ∧ 2 ≤ freshS.length ∧
    eval 1 (.sym ":=") 1 freshS = (.ok (.prim .assign), freshS) ∧
    eval 1 (.sym "function") 1 freshS = (.error .carlaeNameError, freshS) := by
  have hp : plainChain freshS 2 1 := ⟨rfl, rfl, rfl⟩
  have h := c10_keyword_symbols_in_value_position freshS 1 2 0 hp (by decide)
  exact ⟨hp, by decide, h.1, h.2.1⟩

/-- Folding a promoting operator from an int accumulator over all-int
operands stays int. -/
theorem foldE_arith_int (fi : Int → Int → Int) (fq : Rat → Rat → Rat) :
    ∀ (args : List Term) (m : Int), (∀ t ∈ args, isIntV t) →
      ∃ n, foldE (arithVal fi fq) (.int m) args = .ok (.int n) := by
  intro args
  induction args with
  | nil => exact fun m _ => ⟨m, rfl⟩
  | cons a rest ih =>
    intro m hall
    obtain ⟨n, rfl⟩ := hall a (by simp)
    obtain ⟨r, hr⟩ := ih (fi m n) (fun t ht => hall t (by simp [ht]))
    exact ⟨r, by simpa [foldE, arithVal] using hr⟩

/-- Folding a promoting operator from a float accumulator over numeric
operands stays float. -/
theorem foldE_arith_float (fi : Int → Int → Int) (fq : Rat → Rat → Rat) :
    ∀ (args : List Term) (p : Rat), (∀ t ∈ args, isNumV t) →
      ∃ q, foldE (arithVal fi fq) (.float p) args = .ok (.float q) := by
  intro args
  induction args with
  | nil => exact fun p _ => ⟨p, rfl⟩
  | cons a rest ih =>
    intro p hall
    have hrest : ∀ t ∈ rest, isNumV t := fun t ht => hall t (by simp [ht])
    rcases hall a (by simp) with ⟨n, rfl⟩ | ⟨q, rfl⟩
    · obtain ⟨r, hr⟩ := ih (fq p (n : Rat)) hrest
      exact ⟨r, by simpa [foldE, arithVal] using hr⟩
    · obtain ⟨r, hr⟩ := ih (fq p q) hrest
      exact ⟨r, by simpa [foldE, arithVal] using hr⟩

/-- Folding a promoting operator from an int accumulator over numeric
operands among which at least one is a float ends float. -/
theorem foldE_arith_promote (fi : Int → Int → Int) (fq : Rat → Rat → Rat) :
    ∀ (args : List Term) (m : Int), (∀ t ∈ args, isNumV t) →
      (∃ t ∈ args, isFloatV t) →
      ∃ q, foldE (arithVal fi fq) (.int m) args = .ok (.float q) := by
  intro args
  induction args with
  | nil => rintro m _ ⟨t, ht, _⟩; exact absurd ht (by simp)
  | cons a rest ih =>
    intro m hall hfl
    have hrest : ∀ t ∈ rest, isNumV t := fun t ht => hall t (by simp [ht])
    rcases hall a (by simp) with ⟨n, rfl⟩ | ⟨q, rfl⟩
    · have hfl' : ∃ t ∈ rest, isFloatV t := by
        rcases hfl with ⟨t, ht, hf⟩
        rcases List.mem_cons.mp ht with rfl | hmem
        · rcases hf with ⟨q, hq⟩; exact absurd hq (fun h => Term.noConfusion h)
        · exact ⟨t, hmem, hf⟩
      obtain ⟨r, hr⟩ := ih (fi m n) hrest hfl'
      exact ⟨r, by simpa [foldE, arithVal] using hr⟩
    · obtain ⟨r, hr⟩ := foldE_arith_float fi fq rest (fq (m : Rat) q) hrest
      exact ⟨r, by simpa [foldE, arithVal] using hr⟩

/-- Folding a promoting operator over numeric operands from a numeric
accumulator yields a number. -/
theorem foldE_arith_num (fi : Int → Int → Int) (fq : Rat → Rat → Rat)
    (args : List Term) (acc : Term) (hacc : isNumV acc)
    (hall : ∀ t ∈ args, isNumV t) :
    ∃ r, foldE (arithVal fi fq) acc args = .ok r ∧ isNumV r := by
  rcases hacc with ⟨n, rfl⟩ | ⟨q, rfl⟩
  · by_cases hfl : ∃ t ∈ args, isFloatV t
    · obtain ⟨r, hr⟩ := foldE_arith_promote fi fq args n hall hfl
      exact ⟨.float r, hr, Or.inr ⟨r, rfl⟩⟩
    · have hint : ∀ t ∈ args, isIntV t := by
        intro t ht
        rcases hall t ht with h | h
        · exact h
        · exact absurd ⟨t, ht, h⟩ hfl
      obtain ⟨r, hr⟩ := foldE_arith_int fi fq args n hint
      exact ⟨.int r, hr, Or.inl ⟨r, rfl⟩⟩
  · obtain ⟨r, hr⟩ := foldE_arith_float fi fq args q hall
    exact ⟨.float r, hr, Or.inr ⟨r, rfl⟩⟩

/-- Folding true division from a float accumulator over nonzero numeric
divisors stays float. -/
theorem foldE_div_float :
    ∀ (rest : List Term) (p : Rat), (∀ t ∈ rest, nonzeroNumV t) →
      ∃ q, foldE divVal (.float p) rest = .ok (.float q) := by
  intro rest
  induction rest with
  | nil => exact fun p _ => ⟨p, rfl⟩
  | cons a tail ih =>
    intro p hall
    have htail : ∀ t ∈ tail, nonzeroNumV t := fun t ht => hall t (by simp [ht])
    rcases hall a (by simp) with ⟨n, hn, rfl⟩ | ⟨q, hq, rfl⟩
    · obtain ⟨r, hr⟩ := ih (p / (n : Rat)) htail
      refine ⟨r, ?_⟩
      simpa [foldE, divVal, hn] using hr
    · obtain ⟨r, hr⟩ := ih (p / q) htail
      refine ⟨r, ?_⟩
      simpa [foldE, divVal, hq] using hr

/-- C2 counterexample: the all-int application `(/ 4 2)` — well-formed
arithmetic over the `/` primitive with only integer operands — produces a
float-tagged result (Python true division), not an integer. -/
theorem c2_int_division_yields_float :
    isIntV (Term.int 4) ∧ isIntV (Term.int 2) ∧
    (eval 5 (.list [.sym "/", .int 4, .int 2]) 1 freshS).1 =
      .ok (.float (((4 : Int) : Rat) / ((2 : Int) : Rat))) ∧
    ((4 : Int) : Rat) / ((2 : Int) : Rat) = (2 : Rat) ∧
    Term.float (((4 : Int) : Rat) / ((2 : Int) : Rat)) ≠ Term.int 2 :=
  ⟨⟨4, rfl⟩, ⟨2, rfl⟩, rfl, by norm_num, fun h => Term.noConfusion h⟩

/-- C2 (amended): for the `+`, `-` and `*` primitives, all-integer
operands give an integer result and the presence of a float operand gives
a float result (with `-` requiring at least one operand, as the code
raises a host IndexError on none); for `/`, a single operand is returned
unchanged — no division happens — and with two or more (nonzero, so the
division is defined) operands the result is always a float, even when
every operand is an integer. -/
theorem c2_arithmetic_promotion :
    (∀ args, (∀ t ∈ args, isIntV t) → ∃ n, applyPrim .add args = .ok (.int n)) ∧
    (∀ args, (∀ t ∈ args, isNumV t) → (∃ t ∈ args, isFloatV t) →
        ∃ q, applyPrim .add args = .ok (.float q)) ∧
    (∀ args, args ≠ [] → (∀ t ∈ args, isIntV t) →
        ∃ n, applyPrim .sub args = .ok (.int n)) ∧
    (∀ args, args ≠ [] → (∀ t ∈ args, isNumV t) → (∃ t ∈ args, isFloatV t) →
        ∃ q, applyPrim .sub args = .ok (.float q)) ∧
    (∀ args, (∀ t ∈ args, isIntV t) → ∃ n, applyPrim .mul args = .ok (.int n)) ∧
    (∀ args, (∀ t ∈ args, isNumV t) → (∃ t ∈ args, isFloatV t) →
        ∃ q, applyPrim .mul args = .ok (.float q)) ∧
    (∀ a, applyPrim .div [a] = .ok a) ∧
    (∀ a b rest, isNumV a → nonzeroNumV b → (∀ t ∈ rest, nonzeroNumV t) →
        ∃ q, applyPrim .div (a :: b :: rest) = .ok (.float q)) := by
  refine ⟨?_, ?_, ?_, ?_, ?_, ?_, fun a => rfl, ?_⟩
  · exact fun args h => foldE_arith_int _ _ args 0 h
  · exact fun args h hf => foldE_arith_promote _ _ args 0 h hf
  · intro args hne hall
    match args with
    | [a] =>
      obtain ⟨n, rfl⟩ := hall a (by simp)
      exact ⟨-n, rfl⟩
    | a :: b :: rest =>
      obtain ⟨n, rfl⟩ := hall a (by simp)
      obtain ⟨k, hk⟩ := foldE_arith_int (· + ·) (· + ·) (b :: rest) 0
        (fun t ht => hall t (by simp [List.mem_cons.mp ht]))
      refine ⟨n - k, ?_⟩
      have hk' : foldE addVal (.int 0) (b :: rest) = .ok (.int k) := hk
      simp [applyPrim, subtractBuiltin, pySum, hk']
      rfl
  · intro args hne hall hfl
    match args with
    | [a] =>
      rcases hfl with ⟨t, ht, hf⟩
      rcases List.mem_cons.mp ht with rfl | ht
      · obtain ⟨q, rfl⟩ := hf
        exact ⟨-q, rfl⟩
      · exact absurd ht (by simp)
    | a :: b :: rest =>
      have hrest : ∀ t ∈ b :: rest, isNumV t :=
        fun t ht => hall t (by simp [List.mem_cons.mp ht])
      rcases hall a (by simp) with ⟨n, rfl⟩ | ⟨p, rfl⟩
      · have hfl' : ∃ t ∈ b :: rest, isFloatV t := by
          rcases hfl with ⟨t, ht, hf⟩
          rcases List.mem_cons.mp ht with rfl | hmem
          · rcases hf with ⟨q, hq⟩; exact absurd hq (fun h => Term.noConfusion h)
          · exact ⟨t, hmem, hf⟩
        obtain ⟨k, hk⟩ := foldE_arith_promote (· + ·) (· + ·) (b :: rest) 0
          hrest hfl'
        refine ⟨(n : Rat) - k, ?_⟩
        have hk' : foldE addVal (.int 0) (b :: rest) = .ok (.float k) := hk
        simp [applyPrim, subtractBuiltin, pySum, hk']
        rfl
      · obtain ⟨r, hr, hnum⟩ := foldE_arith_num (· + ·) (· + ·) (b :: rest)
          (.int 0) (Or.inl ⟨0, rfl⟩) hrest
        rcases hnum with ⟨k, rfl⟩ | ⟨k, rfl⟩
        · refine ⟨p - (k : Rat), ?_⟩
          have hr' : foldE addVal (.int 0) (b :: rest) = .ok (.int k) := hr
          simp [applyPrim, subtractBuiltin, pySum, hr']
          rfl
        · refine ⟨p - k, ?_⟩
          have hr' : foldE addVal (.int 0) (b :: rest) = .ok (.float k) := hr
          simp [applyPrim, subtractBuiltin, pySum, hr']
          rfl
  · exact fun args h => foldE_arith_int _ _ args 1 h
  · exact fun args h hf => foldE_arith_promote _ _ args 1 h hf
  · intro a b rest hna hnb hrest
    rcases hna with ⟨m, rfl⟩ | ⟨p, rfl⟩
    · rcases hnb with ⟨n, hn, rfl⟩ | ⟨q, hq, rfl⟩
      · obtain ⟨r, hr⟩ := foldE_div_float rest ((m : Rat) / (n : Rat)) hrest
        exact ⟨r, by simpa [applyPrim, divide, foldE, divVal, hn] using hr⟩
      · obtain ⟨r, hr⟩ := foldE_div_float rest ((m : Rat) / q) hrest
        exact ⟨r, by simpa [applyPrim, divide, foldE, divVal, hq] using hr⟩
    · rcases hnb with ⟨n, hn, rfl⟩ | ⟨q, hq, rfl⟩
      · obtain ⟨r, hr⟩ := foldE_div_float rest (p / (n : Rat)) hrest
        exact ⟨r, by simpa [applyPrim, divide, foldE, divVal, hn] using hr⟩
      · obtain ⟨r, hr⟩ := foldE_div_float rest (p / q) hrest
        exact ⟨r, by simpa [applyPrim, divide, foldE, divVal, hq] using hr⟩

/-- C2 witness: `(+ 2 3)` stays int; `(+ 2 0.5)` goes float; `(/ 4 2)` is
float despite all-int operands; `(/ 7)` is the untouched int `7`. -/
theorem c2_arithmetic_promotion_witness :
    (∃ n, applyPrim .add [Term.int 2, Term.int 3] = .ok (.int n)) ∧
    (∃ q, applyPrim .add [Term.int 2, Term.float (1 / 2)] = .ok (.float q)) ∧
    (∃ q, applyPrim .div [Term.int 4, Term.int 2] = .ok (.float q)) ∧
    applyPrim .div [Term.int 7] = .ok (.int 7) :=
  ⟨c2_arithmetic_promotion.1 [Term.int 2, Term.int 3]
      (by intro t ht
          rcases List.mem_cons.mp ht with rfl | ht
          · exact ⟨2, rfl⟩
          · rcases List.mem_cons.mp ht with rfl | ht
            · exact ⟨3, rfl⟩
            · exact absurd ht (by simp)),
   c2_arithmetic_promotion.2.1 [Term.int 2, Term.float (1 / 2)]
      (by intro t ht
          rcases List.mem_cons.mp ht with rfl | ht
          · exact Or.inl ⟨2, rfl⟩
          · rcases List.mem_cons.mp ht with rfl | ht
            · exact Or.inr ⟨1 / 2, rfl⟩
            · exact absurd ht (by simp))
      ⟨Term.float (1 / 2), by simp, ⟨1 / 2, rfl⟩⟩,
   c2_arithmetic_promotion.2.2.2.2.2.2.2 (Term.int 4) (Term.int 2) []
      (Or.inl ⟨4, rfl⟩) (Or.inl ⟨2, by norm_num⟩) (by simp),
   c2_arithmetic_promotion.2.2.2.2.2.2.1 (Term.int 7)⟩

/-- C9 counterexample: `run_carlae` returns only the evaluated value, not
a two-element (value, environment) result: running `(:= x 5)` with `env`
omitted yields just `5`, and a subsequent `run_carlae` call with `env`
omitted again starts from a fresh chain where `x` is unbound — the
binding cannot be threaded through the value `run_carlae` returns. -/
theorem c9_run_returns_value_only :
    run_carlae 10 "(:= x 5)" none [] =
      (.ok (.int 5), [builtinsFrame, Frame.mk [(.sym "x", .int 5)] (some 0)]) ∧
    (run_carlae 10 "x" none []).1 = .error .carlaeNameError :=
  ⟨rfl, rfl⟩

/-- C9 (amended): the two-element result lives in `result_and_env`, which
takes a parsed tree: with `env` omitted it builds a fresh environment
(index `s.length + 1`) chained under a freshly built builtins root (index
`s.length`) and returns the evaluated value together with that
environment, through which a caller can thread bindings across successive
calls; `run_carlae` itself forwards only element `[0]` of the pair. -/
theorem c9_result_and_env_returns_value_and_env (f : Nat) (tree : Term)
    (s : Store) (v : Term) (e : Nat) (s' : Store)
    (h : result_and_env f tree none s = (.ok (v, e), s')) :
    e = s.length + 1 ∧
    eval f tree (s.length + 1)
        (s ++ [builtinsFrame, Frame.mk [] (some s.length)]) = (.ok v, s') := by
  simp only [result_and_env, _create_env, evaluate] at h
  rcases hev : eval f tree (s.length + 1)
      (s ++ [builtinsFrame, Frame.mk [] (some s.length)]) with ⟨r, s2⟩
  rw [hev] at h
  cases r with
  | ok w =>
    simp only [Except.ok.injEq, Prod.mk.injEq] at h
    obtain ⟨⟨hw, he⟩, hs⟩ := h
    exact ⟨he.symm, by rw [hw, hs]⟩
  | error err => simp at h

/-- C9 witness: a concrete `result_and_env` call with `env` omitted, its
returned environment, and a second call that threads that environment (the
binding made by `(:= x 5)` is visible to the later evaluation of `x`). -/
theorem c9_result_and_env_witness :
    result_and_env 10 (.int 3) none [] = (.ok (.int 3, 1), freshS) ∧
    (1 = ([] : Store).length + 1 ∧
      eval 10 (.int 3) (([] : Store).length + 1)
        ([] ++ [builtinsFrame, Frame.mk [] (some ([] : Store).length)]) =
        (.ok (.int 3), freshS)) ∧
    (result_and_env 10 (.list [.sym ":=", .sym "x", .int 5]) none []).1 =
      .ok (.int 5, 1) ∧
    (evaluate 10 (.sym "x") (some 1)
        (result_and_env 10 (.list [.sym ":=", .sym "x", .int 5]) none []).2).1 =
      .ok (.int 5) :=
  ⟨rfl, c9_result_and_env_returns_value_and_env 10 (.int 3) [] (.int 3) 1 freshS
      rfl,
   rfl, rfl⟩

/-! ## Parser correctness (C8) -/

/-- `runDepth` over an append runs the two halves in sequence. -/
theorem runDepth_append :
    ∀ (xs ys : List String) (d : Int),
      runDepth d (xs ++ ys) = (runDepth d xs).bind (fun m => runDepth m ys) := by
  intro xs
  induction xs with
  | nil => intro ys d; rfl
  | cons t ts ih =>
    intro ys d
    simp only [List.cons_append, runDepth]
    by_cases hlt : d + depthDelta t < 0
    · simp [hlt]
    · simp [hlt, ih]

/-- A depth run started nonnegative ends nonnegative. -/
theorem runDepth_nonneg :
    ∀ (xs : List String) (d m : Int), 0 ≤ d → runDepth d xs = some m → 0 ≤ m := by
  intro xs
  induction xs with
  | nil => intro d m hd h; simp only [runDepth, Option.some.injEq] at h; omega
  | cons t ts ih =>
    intro d m hd h
    simp only [runDepth] at h
    by_cases hlt : d + depthDelta t < 0
    · simp [hlt] at h
    · rw [if_neg hlt] at h
      exact ih _ _ (by omega) h

/-- A depth run that stays at least `1` from a start of at least `1` ends
at least `1`. -/
theorem runDepth_stayPos_ge_one :
    ∀ (xs : List String) (d m : Int), 1 ≤ d → stayPos d xs = true →
      runDepth d xs = some m → 1 ≤ m := by
  intro xs
  induction xs with
  | nil => intro d m hd _ h; simp only [runDepth, Option.some.injEq] at h; omega
  | cons t ts ih =>
    intro d m hd hsp h
    simp only [stayPos, Bool.and_eq_true, decide_eq_true_eq] at hsp
    simp only [runDepth] at h
    by_cases hlt : d + depthDelta t < 0
    · simp [hlt] at h
    · rw [if_neg hlt] at h
      exact ih _ _ hsp.1 hsp.2 h

/-- `stayPos` over an append, given the end depth of the first half. -/
theorem stayPos_append :
    ∀ (xs ys : List String) (d m : Int), runDepth d xs = some m →
      stayPos d (xs ++ ys) = (stayPos d xs && stayPos m ys) := by
  intro xs
  induction xs with
  | nil =>
    intro ys d m h
    simp only [runDepth, Option.some.injEq] at h
    subst h
    simp [stayPos]
  | cons t ts ih =>
    intro ys d m h
    simp only [runDepth] at h
    by_cases hlt : d + depthDelta t < 0
    · simp [hlt] at h
    · rw [if_neg hlt] at h
      have := ih ys _ m h
      simp only [List.cons_append, stayPos]
      rw [show ts.append ys = ts ++ ys from rfl, this, Bool.and_assoc]

/-- Shift lemma: a run that stays at least `1` can be replayed one level
lower. -/
theorem runDepth_shift :
    ∀ (xs : List String) (d m : Int), stayPos (d + 1) xs = true →
      runDepth (d + 1) xs = some (m + 1) → runDepth d xs = some m := by
  intro xs
  induction xs with
  | nil =>
    intro d m _ h
    simp only [runDepth, Option.some.injEq] at h ⊢
    omega
  | cons t ts ih =>
    intro d m hsp h
    simp only [stayPos, Bool.and_eq_true, decide_eq_true_eq] at hsp
    simp only [runDepth] at h ⊢
    rw [if_neg (by omega : ¬ d + 1 + depthDelta t < 0)] at h
    rw [if_neg (by omega : ¬ d + depthDelta t < 0)]
    have hd : d + depthDelta t = (d + 1 + depthDelta t - 1) := by omega
    have hsp1 : stayPos (d + 1 + depthDelta t - 1 + 1) ts = true := by
      have : d + 1 + depthDelta t - 1 + 1 = d + 1 + depthDelta t := by omega
      rw [this]; exact hsp.2
    have hr1 : runDepth (d + 1 + depthDelta t - 1 + 1) ts = some (m + 1) := by
      have : d + 1 + depthDelta t - 1 + 1 = d + 1 + depthDelta t := by omega
      rw [this]; exact h
    rw [hd]
    exact ih _ _ hsp1 hr1

/-- `balancedFrom` on the empty list just tests the depth. -/
theorem balancedFrom_nil (d : Int) : balancedFrom d [] = (d == 0) := rfl

/-- One-step unfolding of `balancedFrom`. -/
theorem balancedFrom_cons (d : Int) (t : String) (ts : List String) :
    balancedFrom d (t :: ts) =
      if d + depthDelta t < 0 then false else balancedFrom (d + depthDelta t) ts := by
  simp only [balancedFrom, runDepth]
  by_cases h : d + depthDelta t < 0
  · simp [h]
  · simp [h]

/-- The grouping loop fails (with `CarlaeSyntaxError`) exactly when the
remaining tokens are unbalanced from the current depth: it errors whenever
`balancedFrom stack r` is false and returns some group list whenever it is
true. -/
theorem groupLoop_balanced :
    ∀ (r inner : List String) (i : Nat) (groups : List (List String))
      (opening stack : Int), 0 ≤ stack →
      (balancedFrom stack r = false →
        groupLoop inner i r groups opening stack = .error .carlaeSyntaxError) ∧
      (balancedFrom stack r = true →
        ∃ gs, groupLoop inner i r groups opening stack = .ok gs) := by
  intro r
  induction r with
  | nil =>
    intro inner i groups opening stack hst
    constructor
    · intro hb
      rw [balancedFrom_nil] at hb
      simp only [beq_eq_false_iff_ne, ne_eq] at hb
      simp only [groupLoop]
      rw [if_pos (by omega)]
    · intro hb
      rw [balancedFrom_nil] at hb
      simp only [beq_iff_eq] at hb
      refine ⟨groups, ?_⟩
      simp only [groupLoop]
      rw [if_neg (by omega)]
  | cons t rest ih =>
    intro inner i groups opening stack hst
    by_cases ht1 : t = "("
    · subst ht1
      have hb' : balancedFrom stack ("(" :: rest) = balancedFrom (stack + 1) rest := by
        rw [balancedFrom_cons, show depthDelta "(" = 1 from rfl, if_neg (by omega)]
      rw [hb']
      simp only [groupLoop, if_pos rfl]
      exact ⟨(ih inner (i + 1) groups _ (stack + 1) (by omega)).1,
             (ih inner (i + 1) groups _ (stack + 1) (by omega)).2⟩
    · by_cases ht2 : t = ")"
      · subst ht2
        have hne : ¬ (")" : String) = "(" := by simp
        by_cases hneg : stack - 1 < 0
        · have hb' : balancedFrom stack (")" :: rest) = false := by
            rw [balancedFrom_cons, show depthDelta ")" = -1 from rfl, if_pos (by omega)]
          rw [hb']
          constructor
          · intro _
            simp only [groupLoop]
            simp [hne, hneg]
          · intro hb
            exact absurd hb (by simp)
        · have hb' : balancedFrom stack (")" :: rest) =
              balancedFrom (stack - 1) rest := by
            rw [balancedFrom_cons, show depthDelta ")" = -1 from rfl, if_neg (by omega),
              show stack + -1 = stack - 1 by omega]
          rw [hb']
          by_cases hz : stack - 1 = 0
          · have hred : groupLoop inner i (")" :: rest) groups opening stack =
                groupLoop inner (i + 1) rest
                  (groups ++ [(inner.drop opening.toNat).take (i + 1 - opening.toNat)])
                  (-1) (stack - 1) := by
              simp only [groupLoop]
              simp [hne, hneg, hz]
            rw [hred]
            exact ⟨(ih inner (i + 1) _ (-1) (stack - 1) (by omega)).1,
                   (ih inner (i + 1) _ (-1) (stack - 1) (by omega)).2⟩
          · have hred : groupLoop inner i (")" :: rest) groups opening stack =
                groupLoop inner (i + 1) rest groups opening (stack - 1) := by
              simp only [groupLoop]
              simp [hne, hneg, hz]
            rw [hred]
            exact ⟨(ih inner (i + 1) groups opening (stack - 1) (by omega)).1,
                   (ih inner (i + 1) groups opening (stack - 1) (by omega)).2⟩
      · have hb' : balancedFrom stack (t :: rest) = balancedFrom stack rest := by
          rw [balancedFrom_cons, show depthDelta t = 0 by simp [depthDelta, ht1, ht2],
            if_neg (by omega), show stack + 0 = stack by omega]
        rw [hb']
        by_cases hop : opening ≥ 0
        · have hred : groupLoop inner i (t :: rest) groups opening stack =
              groupLoop inner (i + 1) rest groups opening stack := by
            simp only [groupLoop]
            simp [ht1, ht2, hop]
          rw [hred]
          exact ⟨(ih inner (i + 1) groups opening stack hst).1,
                 (ih inner (i + 1) groups opening stack hst).2⟩
        · have hred : groupLoop inner i (t :: rest) groups opening stack =
              groupLoop inner (i + 1) rest (groups ++ [[t]]) opening stack := by
            simp only [groupLoop]
            simp [ht1, ht2, hop]
          rw [hred]
          exact ⟨(ih inner (i + 1) _ opening stack hst).1,
                 (ih inner (i + 1) _ opening stack hst).2⟩

/-- Appending one token to a successful depth run. -/
theorem runDepth_snoc (xs : List String) (t : String) (d m k : Int)
    (h : runDepth d xs = some m) (hdel : depthDelta t = k)
    (hpos : ¬ m + k < 0) : runDepth d (xs ++ [t]) = some (m + k) := by
  rw [runDepth_append, h]
  show (if m + depthDelta t < 0 then none else runDepth (m + depthDelta t) []) =
    some (m + k)
  rw [hdel, if_neg hpos]
  rfl

/-- Appending one token to a run that stays positive keeps it positive as
long as the new depth is at least `1`. -/
theorem stayPos_snoc (xs : List String) (t : String) (d m k : Int)
    (h : runDepth d xs = some m) (hdel : depthDelta t = k)
    (hsp : stayPos d xs = true) (h1 : 1 ≤ m + k) :
    stayPos d (xs ++ [t]) = true := by
  rw [stayPos_append xs [t] d m h, hsp]
  simp only [stayPos, hdel, Bool.and_true, Bool.true_and, decide_eq_true_eq]
  exact h1

/-- Invariant of the grouping loop on the success path: every group it
ever emits is a non-paren singleton or a balanced `(`…`)` run.  The list
`c` is the already-consumed prefix (so the loop argument `i` equals
`c.length` and the full interior is `c ++ r`); the invariant carries the
depth of `c` and, when a group is open at index `o`, the shape of the
consumed segment since `o`. -/
theorem groupLoop_goodGroups :
    ∀ (r c : List String) (groups : List (List String)) (opening stack : Int)
      (gs : List (List String)),
      runDepth 0 c = some stack →
      ((opening = -1 ∧ stack = 0) ∨
        (∃ (o : Nat) (mid : List String), opening = (o : Int) ∧ o < c.length ∧
          c.drop o = "(" :: mid ∧ stayPos 1 mid = true ∧
          runDepth 1 mid = some stack)) →
      (∀ g ∈ groups, goodGroup g) →
      groupLoop (c ++ r) c.length r groups opening stack = .ok gs →
      (∀ g ∈ gs, goodGroup g) := by
  intro r
  induction r with
  | nil =>
    intro c groups opening stack gs _ _ hgr hok
    simp only [groupLoop] at hok
    by_cases h : stack > 0
    · rw [if_pos h] at hok
      exact absurd hok (by simp)
    · rw [if_neg h] at hok
      simp only [Except.ok.injEq] at hok
      subst hok
      exact hgr
  | cons t rest ih =>
    intro c groups opening stack gs hrd hinv hgr hok
    have hst : 0 ≤ stack := runDepth_nonneg c 0 stack (le_refl 0) hrd
    have hCons : c ++ t :: rest = (c ++ [t]) ++ rest := by
      rw [List.append_assoc]
      rfl
    have hLen : (c ++ [t]).length = c.length + 1 := by simp
    by_cases ht1 : t = "("
    · subst ht1
      have hred : groupLoop (c ++ "(" :: rest) c.length ("(" :: rest) groups
            opening stack =
          groupLoop (c ++ "(" :: rest) (c.length + 1) rest groups
            (if opening < 0 then (c.length : Int) else opening) (stack + 1) := by
        simp only [groupLoop]
        simp
      rw [hred, hCons, ← hLen] at hok
      have hrdNew : runDepth 0 (c ++ ["("]) = some (stack + 1) :=
        runDepth_snoc c "(" 0 stack 1 hrd rfl (by omega)
      rcases hinv with ⟨hop, hstz⟩ | ⟨o, mid, hop, holt, hdrop, hsp, hrun⟩
      · subst hop hstz
        rw [if_pos (by omega)] at hok
        refine ih (c ++ ["("]) groups _ _ gs hrdNew (Or.inr ?_) hgr hok
        refine ⟨c.length, [], rfl, by rw [hLen]; omega, ?_, rfl, rfl⟩
        rw [List.drop_left]
      · subst hop
        rw [if_neg (by omega)] at hok
        refine ih (c ++ ["("]) groups _ _ gs hrdNew (Or.inr ?_) hgr hok
        refine ⟨o, mid ++ ["("], rfl, by rw [hLen]; omega, ?_, ?_, ?_⟩
        · rw [List.drop_append_of_le_length (by omega), hdrop]
          rfl
        · exact stayPos_snoc mid "(" 1 stack 1 hrun rfl hsp (by omega)
        · exact runDepth_snoc mid "(" 1 stack 1 hrun rfl (by omega)
    · by_cases ht2 : t = ")"
      · subst ht2
        have hne : ¬ (")" : String) = "(" := by simp
        by_cases hneg : stack - 1 < 0
        · have herr : groupLoop (c ++ ")" :: rest) c.length (")" :: rest) groups
              opening stack = .error .carlaeSyntaxError := by
            simp only [groupLoop]
            simp [hne, hneg]
          rw [herr] at hok
          exact absurd hok (by simp)
        · by_cases hz : stack - 1 = 0
          · rcases hinv with ⟨hop, hstz⟩ | ⟨o, mid, hop, holt, hdrop, hsp, hrun⟩
            · omega
            subst hop
            have hred : groupLoop (c ++ ")" :: rest) c.length (")" :: rest) groups
                  ((o : Int)) stack =
                groupLoop (c ++ ")" :: rest) (c.length + 1) rest
                  (groups ++ [((c ++ ")" :: rest).drop ((o : Int)).toNat).take
                    (c.length + 1 - ((o : Int)).toNat)]) (-1) (stack - 1) := by
              simp only [groupLoop]
              simp [hne, hneg, hz]
            have hoNat : ((o : Int)).toNat = o := Int.toNat_ofNat o
            have hdropLen : (c.drop o).length = c.length - o := List.length_drop o c
            have hmidLen : c.length - o = mid.length + 1 := by
              rw [← hdropLen, hdrop]
              rfl
            have hslice : ((c ++ ")" :: rest).drop o).take (c.length + 1 - o) =
                "(" :: mid ++ [")"] := by
              rw [List.drop_append_of_le_length (by omega), hdrop]
              have harith : c.length + 1 - o = ("(" :: mid).length + 1 := by
                simp only [List.length_cons]
                omega
              rw [harith]
              have htk := @List.take_append String ("(" :: mid) (")" :: rest) 1
              simpa using htk
            rw [hred, hoNat, hslice, hCons, ← hLen] at hok
            have hgood : goodGroup ("(" :: mid ++ [")"]) := by
              refine Or.inr ⟨mid, rfl, ?_⟩
              have h0 : runDepth 1 mid = some 1 := by
                rw [hrun]
                congr 1
                omega
              have hshift := runDepth_shift mid 0 0 (by simpa using hsp)
                (by simpa using h0)
              simp only [balancedFrom, hshift]
              rfl
            have hrdNew : runDepth 0 (c ++ [")"]) = some (stack - 1) := by
              have := runDepth_snoc c ")" 0 stack (-1) hrd rfl (by omega)
              rw [this]
              congr 1
            refine ih (c ++ [")"]) _ _ _ gs hrdNew (Or.inl ⟨rfl, by omega⟩) ?_ hok
            intro g hg
            rcases List.mem_append.mp hg with hg | hg
            · exact hgr g hg
            · rcases List.mem_singleton.mp hg with rfl
              exact hgood
          · have hred : groupLoop (c ++ ")" :: rest) c.length (")" :: rest) groups
                  opening stack =
                groupLoop (c ++ ")" :: rest) (c.length + 1) rest groups opening
                  (stack - 1) := by
              simp only [groupLoop]
              simp [hne, hneg, hz]
            rw [hred, hCons, ← hLen] at hok
            rcases hinv with ⟨hop, hstz⟩ | ⟨o, mid, hop, holt, hdrop, hsp, hrun⟩
            · omega
            subst hop
            have hrdNew : runDepth 0 (c ++ [")"]) = some (stack - 1) := by
              have := runDepth_snoc c ")" 0 stack (-1) hrd rfl (by omega)
              rw [this]
              congr 1
            refine ih (c ++ [")"]) groups _ _ gs hrdNew (Or.inr ?_) hgr hok
            refine ⟨o, mid ++ [")"], rfl, by rw [hLen]; omega, ?_, ?_, ?_⟩
            · rw [List.drop_append_of_le_length (by omega), hdrop]
              rfl
            · exact stayPos_snoc mid ")" 1 stack (-1) hrun rfl hsp (by omega)
            · have := runDepth_snoc mid ")" 1 stack (-1) hrun rfl (by omega)
              rw [this]
              congr 1
      · have hdel : depthDelta t = 0 := by simp [depthDelta, ht1, ht2]
        have hrdNew : runDepth 0 (c ++ [t]) = some stack := by
          have := runDepth_snoc c t 0 stack 0 hrd hdel (by omega)
          rw [this]
          congr 1
          omega
        by_cases hop : opening ≥ 0
        · have hred : groupLoop (c ++ t :: rest) c.length (t :: rest) groups
                opening stack =
              groupLoop (c ++ t :: rest) (c.length + 1) rest groups opening
                stack := by
            simp only [groupLoop]
            simp [ht1, ht2, hop]
          rw [hred, hCons, ← hLen] at hok
          rcases hinv with ⟨hop2, hstz⟩ | ⟨o, mid, hop2, holt, hdrop, hsp, hrun⟩
          · omega
          subst hop2
          have hstack1 : 1 ≤ stack :=
            runDepth_stayPos_ge_one mid 1 stack (le_refl 1) hsp hrun
          refine ih (c ++ [t]) groups _ _ gs hrdNew (Or.inr ?_) hgr hok
          refine ⟨o, mid ++ [t], rfl, by rw [hLen]; omega, ?_, ?_, ?_⟩
          · rw [List.drop_append_of_le_length (by omega), hdrop]
            rfl
          · exact stayPos_snoc mid t 1 stack 0 hrun hdel hsp (by omega)
          · have := runDepth_snoc mid t 1 stack 0 hrun hdel (by omega)
            rw [this]
            congr 1
            omega
        · have hred : groupLoop (c ++ t :: rest) c.length (t :: rest) groups
                opening stack =
              groupLoop (c ++ t :: rest) (c.length + 1) rest (groups ++ [[t]])
                opening stack := by
            simp only [groupLoop]
            simp [ht1, ht2, hop]
          rw [hred, hCons, ← hLen] at hok
          rcases hinv with ⟨hop2, hstz⟩ | ⟨o, mid, hop2, holt, hdrop, hsp, hrun⟩
          · refine ih (c ++ [t]) _ _ _ gs hrdNew (Or.inl ⟨hop2, hstz⟩) ?_ hok
            intro g hg
            rcases List.mem_append.mp hg with hg | hg
            · exact hgr g hg
            · rcases List.mem_singleton.mp hg with rfl
              exact Or.inl ⟨t, rfl, ht1, ht2⟩
          · exact absurd hop (by omega)

/-- Every group the loop emits fits inside the interior token list (or is
a singleton). -/
theorem groupLoop_lengths :
    ∀ (r inner : List String) (i : Nat) (groups : List (List String))
      (opening stack : Int) (gs : List (List String)),
      groupLoop inner i r groups opening stack = .ok gs →
      (∀ g ∈ groups, g.length ≤ max 1 inner.length) →
      ∀ g ∈ gs, g.length ≤ max 1 inner.length := by
  intro r
  induction r with
  | nil =>
    intro inner i groups opening stack gs hok hb
    simp only [groupLoop] at hok
    by_cases h : stack > 0
    · rw [if_pos h] at hok
      exact absurd hok (by simp)
    · rw [if_neg h] at hok
      simp only [Except.ok.injEq] at hok
      subst hok
      exact hb
  | cons t rest ih =>
    intro inner i groups opening stack gs hok hb
    by_cases ht1 : t = "("
    · subst ht1
      have hred : groupLoop inner i ("(" :: rest) groups opening stack =
          groupLoop inner (i + 1) rest groups
            (if opening < 0 then (i : Int) else opening) (stack + 1) := by
        simp only [groupLoop]
        simp
      rw [hred] at hok
      exact ih inner (i + 1) groups _ (stack + 1) gs hok hb
    · by_cases ht2 : t = ")"
      · subst ht2
        have hne : ¬ (")" : String) = "(" := by simp
        by_cases hneg : stack - 1 < 0
        · have herr : groupLoop inner i (")" :: rest) groups opening stack =
              .error .carlaeSyntaxError := by
            simp only [groupLoop]
            simp [hne, hneg]
          rw [herr] at hok
          exact absurd hok (by simp)
        · by_cases hz : stack - 1 = 0
          · have hred : groupLoop inner i (")" :: rest) groups opening stack =
                groupLoop inner (i + 1) rest
                  (groups ++ [(inner.drop opening.toNat).take
                    (i + 1 - opening.toNat)]) (-1) (stack - 1) := by
              simp only [groupLoop]
              simp [hne, hneg, hz]
            rw [hred] at hok
            refine ih inner (i + 1) _ (-1) (stack - 1) gs hok ?_
            intro g hg
            rcases List.mem_append.mp hg with hg | hg
            · exact hb g hg
            · rcases List.mem_singleton.mp hg with rfl
              calc ((inner.drop opening.toNat).take
                    (i + 1 - opening.toNat)).length
                  ≤ (inner.drop opening.toNat).length := by
                    rw [List.length_take]
                    exact min_le_right _ _
                _ ≤ inner.length := by
                    rw [List.length_drop]
                    omega
                _ ≤ max 1 inner.length := le_max_right 1 _
          · have hred : groupLoop inner i (")" :: rest) groups opening stack =
                groupLoop inner (i + 1) rest groups opening (stack - 1) := by
              simp only [groupLoop]
              simp [hne, hneg, hz]
            rw [hred] at hok
            exact ih inner (i + 1) groups opening (stack - 1) gs hok hb
      · by_cases hop : opening ≥ 0
        · have hred : groupLoop inner i (t :: rest) groups opening stack =
              groupLoop inner (i + 1) rest groups opening stack := by
            simp only [groupLoop]
            simp [ht1, ht2, hop]
          rw [hred] at hok
          exact ih inner (i + 1) groups opening stack gs hok hb
        · have hred : groupLoop inner i (t :: rest) groups opening stack =
              groupLoop inner (i + 1) rest (groups ++ [[t]]) opening stack := by
            simp only [groupLoop]
            simp [ht1, ht2, hop]
          rw [hred] at hok
          refine ih inner (i + 1) _ opening stack gs hok ?_
          intro g hg
          rcases List.mem_append.mp hg with hg | hg
          · exact hb g hg
          · rcases List.mem_singleton.mp hg with rfl
            simp

/-- `_group_tokens` and well-formedness, for token lists of at least two
tokens: on ill-formed input it raises `CarlaeSyntaxError`; on well-formed
input it succeeds and every emitted group is a good group strictly shorter
than the input. -/
theorem group_tokens_wf (t u : String) (tail : List String) :
    (wfTokens (t :: u :: tail) = false →
      _group_tokens (t :: u :: tail) = .error .carlaeSyntaxError) ∧
    (wfTokens (t :: u :: tail) = true →
      ∃ gs, _group_tokens (t :: u :: tail) = .ok gs ∧
        (∀ g ∈ gs, goodGroup g) ∧
        (∀ g ∈ gs, g.length < (t :: u :: tail).length)) := by
  have hlast : (t :: u :: tail).getLast? = (u :: tail).getLast? :=
    List.getLast?_cons_cons
  have hwfEq : wfTokens (t :: u :: tail) =
      ((t == "(") && ((u :: tail).getLast? == some ")") &&
        balancedFrom 0 (u :: tail).dropLast) := rfl
  by_cases h1 : t = "("
  · by_cases h2 : (u :: tail).getLast? = some ")"
    · have hcond : ¬ (t ≠ "(" ∨ (t :: u :: tail).getLast? ≠ some ")") := by
        push_neg
        exact ⟨h1, by rw [hlast]; exact h2⟩
      have hgtEq : _group_tokens (t :: u :: tail) =
          groupLoop (u :: tail).dropLast 0 (u :: tail).dropLast [] (-1) 0 := by
        simp only [_group_tokens]
        rw [if_neg hcond]
        rfl
      by_cases hbal : balancedFrom 0 (u :: tail).dropLast = true
      · constructor
        · intro hwf
          rw [hwfEq] at hwf
          simp [h1, h2, hbal] at hwf
        · intro _
          obtain ⟨gs, hok⟩ := (groupLoop_balanced (u :: tail).dropLast
            (u :: tail).dropLast 0 [] (-1) 0 (le_refl 0)).2 hbal
          refine ⟨gs, by rw [hgtEq]; exact hok, ?_, ?_⟩
          · exact groupLoop_goodGroups (u :: tail).dropLast [] [] (-1) 0 gs rfl
              (Or.inl ⟨rfl, rfl⟩) (by simp) hok
          · intro g hg
            have hle := groupLoop_lengths (u :: tail).dropLast
              (u :: tail).dropLast 0 [] (-1) 0 gs hok (by simp) g hg
            have hdl : ((u :: tail).dropLast).length = (u :: tail).length - 1 :=
              List.length_dropLast _
            simp only [List.length_cons] at hdl ⊢
            refine Nat.lt_of_le_of_lt hle ?_
            refine max_lt (by omega) (by omega)
      · have hbal' : balancedFrom 0 (u :: tail).dropLast = false := by
          cases hb : balancedFrom 0 (u :: tail).dropLast
          · rfl
          · exact absurd hb hbal
        constructor
        · intro _
          rw [hgtEq]
          exact (groupLoop_balanced (u :: tail).dropLast (u :: tail).dropLast 0
            [] (-1) 0 (le_refl 0)).1 hbal'
        · intro hwf
          rw [hwfEq] at hwf
          simp [h1, h2, hbal'] at hwf
    · constructor
      · intro _
        simp only [_group_tokens]
        rw [if_pos ?_]
        rw [hlast]
        exact Or.inr h2
      · intro hwf
        rw [hwfEq] at hwf
        simp [h2] at hwf
  · constructor
    · intro _
      simp only [_group_tokens]
      rw [if_pos (Or.inl h1)]
    · intro hwf
      rw [hwfEq] at hwf
      simp [h1] at hwf

/-- A good group is a nonempty well-formed token sequence. -/
theorem goodGroup_wfTokens (g : List String) (h : goodGroup g) :
    g ≠ [] ∧ wfTokens g = true := by
  rcases h with ⟨t, rfl, ht1, ht2⟩ | ⟨mid, rfl, hbal⟩
  · exact ⟨by simp, by simp [wfTokens, ht1, ht2]⟩
  · refine ⟨by simp, ?_⟩
    cases mid with
    | nil => rfl
    | cons m ms =>
      have hwfEq : wfTokens ("(" :: m :: (ms ++ [")"])) =
          (("(" == "(") && ((m :: (ms ++ [")"])).getLast? == some ")") &&
            balancedFrom 0 (m :: (ms ++ [")"])).dropLast) := rfl
      have hcat : m :: (ms ++ [")"]) = (m :: ms) ++ [")"] := rfl
      show wfTokens ("(" :: m :: (ms ++ [")"])) = true
      rw [hwfEq, hcat, List.getLast?_concat, List.dropLast_concat]
      simp only [beq_self_eq_true, Bool.true_and]
      exact hbal

/-- `mapM` over `Except` respects pointwise-equal functions. -/
theorem mapM_except_congr (F G : List String → Except Err Term) :
    ∀ (gs : List (List String)), (∀ g ∈ gs, F g = G g) →
      gs.mapM F = gs.mapM G := by
  intro gs
  induction gs with
  | nil => intro _; rfl
  | cons g rest ih =>
    intro h
    simp only [List.mapM_cons]
    rw [h g (by simp), ih (fun x hx => h x (by simp [hx]))]

/-- `mapM` over `Except` succeeds when every element does. -/
theorem mapM_except_ok (F : List String → Except Err Term) :
    ∀ (gs : List (List String)), (∀ g ∈ gs, ∃ v, F g = .ok v) →
      ∃ vs, gs.mapM F = .ok vs := by
  intro gs
  induction gs with
  | nil => intro _; exact ⟨[], rfl⟩
  | cons g rest ih =>
    intro h
    obtain ⟨v, hv⟩ := h g (by simp)
    obtain ⟨vs, hvs⟩ := ih (fun x hx => h x (by simp [hx]))
    refine ⟨v :: vs, ?_⟩
    simp only [List.mapM_cons, hv, hvs]
    rfl

/-- Any group list `_group_tokens` returns consists of groups strictly
shorter than the input. -/
theorem group_tokens_lengths (t : String) (rest : List String)
    (gs : List (List String)) (hok : _group_tokens (t :: rest) = .ok gs) :
    ∀ g ∈ gs, g.length < (t :: rest).length := by
  simp only [_group_tokens] at hok
  by_cases hc : t ≠ "(" ∨ (t :: rest).getLast? ≠ some ")"
  · rw [if_pos hc] at hok
    exact absurd hok (by simp)
  · rw [if_neg hc] at hok
    push_neg at hc
    obtain ⟨ht, hlast⟩ := hc
    have hrne : rest ≠ [] := by
      intro hr
      subst hr
      subst ht
      simp at hlast
    intro g hg
    have hle := groupLoop_lengths rest.dropLast rest.dropLast 0 [] (-1) 0 gs hok
      (by simp) g hg
    have hdl : rest.dropLast.length = rest.length - 1 := List.length_dropLast _
    have hrl : 1 ≤ rest.length := List.length_pos.mpr hrne
    simp only [List.length_cons]
    refine Nat.lt_of_le_of_lt hle ?_
    exact max_lt (by omega) (by omega)

/-- `parseF` does not depend on the exact fuel once it exceeds the token
count. -/
theorem parseF_fuel :
    ∀ (n : Nat) (ts : List String), ts.length ≤ n →
      ∀ f g, ts.length < f → ts.length < g → parseF f ts = parseF g ts := by
  intro n
  induction n using Nat.strong_induction_on with
  | _ n ih =>
    intro ts hn f g hf hg
    obtain ⟨f', rfl⟩ : ∃ f', f = f' + 1 := ⟨f - 1, by omega⟩
    obtain ⟨g', rfl⟩ : ∃ g', g = g' + 1 := ⟨g - 1, by omega⟩
    rcases ts with _ | ⟨t, _ | ⟨u, tail⟩⟩
    · rfl
    · rfl
    · simp only [parseF]
      simp only [List.length_cons] at hn hf hg
      rcases hgt : _group_tokens (t :: u :: tail) with e | groups
      · rfl
      · have hlens := group_tokens_lengths t (u :: tail) groups hgt
        have hcong : groups.mapM (parseF f') = groups.mapM (parseF g') := by
          apply mapM_except_congr
          intro h hmem
          have hl : h.length < (t :: u :: tail).length := hlens h hmem
          simp only [List.length_cons] at hl
          exact ih h.length (by omega) h (le_refl _) f' g' (by omega) (by omega)
        simp only [hcong]

/-- One-step unfolding of `parseF` on a single token. -/
theorem parseF_succ_single (f : Nat) (t : String) :
    parseF (f + 1) [t] =
      (if t = "(" ∨ t = ")" then .error .carlaeSyntaxError
       else .ok (number_or_symbol t)) := rfl

/-- One-step unfolding of `parseF` on two or more tokens. -/
theorem parseF_succ_multi (f : Nat) (t u : String) (tail : List String) :
    parseF (f + 1) (t :: u :: tail) =
      (match _group_tokens (t :: u :: tail) with
       | .error e => .error e
       | .ok groups =>
         match groups.mapM (parseF f) with
         | .error e => .error e
         | .ok parsed => .ok (.list parsed)) := rfl

/-- Main parser correctness: for nonempty token lists, `parse` succeeds on
well-formed input and raises `CarlaeSyntaxError` on ill-formed input. -/
theorem parse_wf :
    ∀ (n : Nat) (ts : List String), ts.length ≤ n → ts ≠ [] →
      (wfTokens ts = true → ∃ v, parse ts = .ok v) ∧
      (wfTokens ts = false → parse ts = .error .carlaeSyntaxError) := by
  intro n
  induction n using Nat.strong_induction_on with
  | _ n ih =>
    intro ts hn hne
    rcases ts with _ | ⟨t, _ | ⟨u, tail⟩⟩
    · exact absurd rfl hne
    · constructor
      · intro hwf
        have hw1 : ¬ t = "(" := by
          intro h
          subst h
          simp [wfTokens] at hwf
        have hw2 : ¬ t = ")" := by
          intro h
          subst h
          simp [wfTokens] at hwf
        refine ⟨number_or_symbol t, ?_⟩
        show parseF ([t].length + 1) [t] = .ok (number_or_symbol t)
        rw [parseF_succ_single, if_neg (not_or_intro hw1 hw2)]
      · intro hwf
        have hdis : t = "(" ∨ t = ")" := by
          by_cases h1 : t = "("
          · exact Or.inl h1
          · by_cases h2 : t = ")"
            · exact Or.inr h2
            · exfalso
              simp [wfTokens, h1, h2] at hwf
        show parseF ([t].length + 1) [t] = .error .carlaeSyntaxError
        rw [parseF_succ_single, if_pos hdis]
    · obtain ⟨hwfF, hwfT⟩ := group_tokens_wf t u tail
      constructor
      · intro hwf
        obtain ⟨gs, hok, hgood, hlens⟩ := hwfT hwf
        have hall : ∀ g ∈ gs, ∃ v, parseF ((t :: u :: tail).length) g = .ok v := by
          intro g hg
          obtain ⟨hgne, hgwf⟩ := goodGroup_wfTokens g (hgood g hg)
          have hllt : g.length < (t :: u :: tail).length := hlens g hg
          have hlen_n : (t :: u :: tail).length ≤ n := hn
          simp only [List.length_cons] at hllt hlen_n
          obtain ⟨v, hv⟩ := (ih g.length (by omega) g (le_refl _) hgne).1 hgwf
          refine ⟨v, ?_⟩
          rw [parseF_fuel g.length g (le_refl _) ((t :: u :: tail).length)
            (g.length + 1) (hlens g hg) (by omega)]
          exact hv
        obtain ⟨vs, hvs⟩ := mapM_except_ok _ gs hall
        refine ⟨.list vs, ?_⟩
        show parseF ((t :: u :: tail).length + 1) (t :: u :: tail) = .ok (.list vs)
        rw [parseF_succ_multi, hok]
        show (match gs.mapM (parseF ((t :: u :: tail).length)) with
          | Except.error e => Except.error e
          | Except.ok parsed => Except.ok (Term.list parsed)) =
            Except.ok (Term.list vs)
        rw [hvs]
      · intro hwf
        have herr := hwfF hwf
        show parseF ((t :: u :: tail).length + 1) (t :: u :: tail) =
          .error .carlaeSyntaxError
        rw [parseF_succ_multi, herr]

/-- C8 counterexample: the empty token sequence (the empty program) does
not raise SyntaxFailure: `parse` hits `tokens[0]` inside `_group_tokens`,
a host IndexError.  Moreover `( ) ( )` — a sequence whose parenthesis
depth never goes negative and ends at zero, so none of the claim's listed
conditions flags it — is nevertheless rejected with `CarlaeSyntaxError`
(it is not a single expression). -/
theorem c8_empty_program_host_error :
    parse ([] : List String) = .error .hostError ∧
    Err.hostError ≠ Err.carlaeSyntaxError ∧
    parse ["(", ")", "(", ")"] = .error .carlaeSyntaxError ∧
    runDepth 0 ["(", ")", "(", ")"] = some 0 :=
  ⟨rfl, by decide, rfl, rfl⟩

/-- C8 (amended): the empty token sequence raises a host IndexError, not
SyntaxFailure; every other token sequence raises SyntaxFailure exactly
when it is not one well-formed expression: a lone token that is a bare
`(` or `)`, a multi-token sequence not beginning with `(` and ending with
`)`, or one whose parenthesis depth — measured on the interior between
the outer parens — goes negative or remains above zero at the end. -/
theorem c8_parse_syntax_error_iff (ts : List String) (hne : ts ≠ []) :
    parse ts = .error .carlaeSyntaxError ↔ wfTokens ts = false := by
  obtain ⟨h1, h2⟩ := parse_wf ts.length ts (le_refl _) hne
  constructor
  · intro hs
    cases hw : wfTokens ts
    · rfl
    · obtain ⟨v, hv⟩ := h1 hw
      rw [hv] at hs
      exact absurd hs (by simp)
  · exact h2

/-- C8 witness: the lone bare paren token. -/
theorem c8_parse_syntax_error_witness :
    ([")"] : List String) ≠ [] ∧
    (parse [")"] = .error .carlaeSyntaxError ↔ wfTokens [")"] = false) :=
  ⟨by simp, c8_parse_syntax_error_iff [")"] (by simp)⟩

end Carlae
